import Mathlib

/-
Verification of the multilang-captions caption-translation core.

The Python source (server.py, nlp/translate.py, nlp/tagger.py) is shallowly
embedded below.  Pure helpers become Lean functions; the on-disk translation
cache and the dictionary directory become explicit association-list states
threaded through the functions; Python exceptions become `Except`/`Option`
results.  Python `float` arithmetic is modelled twice: an exact model over `ℚ`
(definitions without the `_fp` suffix) and an IEEE-754 double-rounding model
over an explicit numerator/denominator pair type (definitions with the `_fp`
suffix).  The MD5 digest is an uninterpreted `String → String` parameter: every
property proved here holds for an arbitrary digest function, and the one
collision exhibited happens in the pre-digest concatenation, so nothing depends
on the real MD5.
-/

/- ### Association lists

Python `dict` preserves insertion order; updating an existing key keeps its
position, a fresh key is appended.  `alGet`/`alSet` model `d.get`/`d[k] = v`. -/

def alGet {β : Type} : List (String × β) → String → Option β
  | [], _ => none
  | (k, v) :: tl, x => if k = x then some v else alGet tl x

def alSet {β : Type} : List (String × β) → String → β → List (String × β)
  | [], k, v => [(k, v)]
  | (k', v') :: tl, k, v =>
    if k' = k then (k, v) :: tl else (k', v') :: alSet tl k v

theorem alGet_alSet_self {β : Type} (l : List (String × β)) (k : String) (v : β) :
    alGet (alSet l k v) k = some v := by
  induction l with
  | nil => simp [alGet, alSet]
  | cons hd tl ih =>
    obtain ⟨k', v'⟩ := hd
    by_cases h : k' = k
    · simp only [alSet, if_pos h, alGet, if_pos rfl]
      simp
    · simp only [alSet, if_neg h, alGet]
      exact ih

theorem alGet_alSet_ne {β : Type} (l : List (String × β)) (k x : String) (v : β)
    (h : x ≠ k) : alGet (alSet l k v) x = alGet l x := by
  have hk : k ≠ x := fun hh => h hh.symm
  induction l with
  | nil =>
    simp only [alSet, alGet]
    rw [if_neg hk]
  | cons hd tl ih =>
    obtain ⟨k', v'⟩ := hd
    by_cases hkk : k' = k
    · subst hkk
      simp only [alSet, if_pos rfl, alGet]
      rw [if_neg hk, if_neg hk]
    · simp only [alSet, if_neg hkk, alGet]
      by_cases hx : k' = x
      · rw [if_pos hx, if_pos hx]
      · rw [if_neg hx, if_neg hx, ih]

/- ### String ordering

Python compares strings lexicographically by code point; `lexLe` is that
order on the underlying character lists (structural recursion so that the
kernel can evaluate it, unlike `String.ltb`). -/

def lexLe : List Char → List Char → Bool
  | [], _ => true
  | _ :: _, [] => false
  | a :: as, b :: bs =>
    if a.toNat < b.toNat then true
    else if b.toNat < a.toNat then false
    else lexLe as bs

def strLe (a b : String) : Bool := lexLe a.data b.data

theorem lexLe_total (a b : List Char) (h : lexLe a b = false) : lexLe b a = true := by
  induction a generalizing b with
  | nil => simp [lexLe] at h
  | cons x xs ih =>
    cases b with
    | nil => rfl
    | cons y ys =>
      simp only [lexLe] at h ⊢
      by_cases h1 : x.toNat < y.toNat
      · rw [if_pos h1] at h
        exact Bool.noConfusion h
      · by_cases h2 : y.toNat < x.toNat
        · rw [if_pos h2]
        · rw [if_neg h1, if_neg h2] at h
          rw [if_neg h2, if_neg h1]
          exact ih ys h

theorem char_eq_of_toNat_eq {a b : Char} (h : a.toNat = b.toNat) : a = b :=
  Char.ext (UInt32.ext h)

theorem lexLe_antisymm (a b : List Char) (h1 : lexLe a b = true)
    (h2 : lexLe b a = true) : a = b := by
  induction a generalizing b with
  | nil =>
    cases b with
    | nil => rfl
    | cons y ys => simp [lexLe] at h2
  | cons x xs ih =>
    cases b with
    | nil => simp [lexLe] at h1
    | cons y ys =>
      simp only [lexLe] at h1 h2
      by_cases hxy : x.toNat < y.toNat
      · rw [if_neg (by omega : ¬ y.toNat < x.toNat), if_pos hxy] at h2
        exact Bool.noConfusion h2
      · by_cases hyx : y.toNat < x.toNat
        · rw [if_neg hxy, if_pos hyx] at h1
          exact Bool.noConfusion h1
        · rw [if_neg hxy, if_neg hyx] at h1
          rw [if_neg hyx, if_neg hxy] at h2
          have hc : x = y := char_eq_of_toNat_eq (by omega)
          rw [hc, ih ys h1 h2]

theorem lexLe_le (a b : List Char) (x y : Char) (xs ys : List Char)
    (ha : a = x :: xs) (hb : b = y :: ys) (h : lexLe a b = true) :
    x.toNat ≤ y.toNat := by
  subst ha hb
  simp only [lexLe] at h
  by_cases h1 : x.toNat < y.toNat
  · omega
  · by_cases h2 : y.toNat < x.toNat
    · rw [if_neg h1, if_pos h2] at h
      exact Bool.noConfusion h
    · omega

theorem lexLe_trans (a b c : List Char) (h1 : lexLe a b = true)
    (h2 : lexLe b c = true) : lexLe a c = true := by
  induction a generalizing b c with
  | nil => rfl
  | cons x xs ih =>
    cases b with
    | nil => simp [lexLe] at h1
    | cons y ys =>
      cases c with
      | nil => simp [lexLe] at h2
      | cons z zs =>
        have hxy : x.toNat ≤ y.toNat := lexLe_le _ _ x y xs ys rfl rfl h1
        have hyz : y.toNat ≤ z.toNat := lexLe_le _ _ y z ys zs rfl rfl h2
        simp only [lexLe] at h1 h2 ⊢
        by_cases hxz : x.toNat < z.toNat
        · rw [if_pos hxz]
        · have hzx : ¬ z.toNat < x.toNat := by omega
          rw [if_neg hxz, if_neg hzx]
          have e1 : ¬ x.toNat < y.toNat := by omega
          have e2 : ¬ y.toNat < x.toNat := by omega
          have e3 : ¬ y.toNat < z.toNat := by omega
          have e4 : ¬ z.toNat < y.toNat := by omega
          rw [if_neg e1, if_neg e2] at h1
          rw [if_neg e3, if_neg e4] at h2
          exact ih ys zs h1 h2

/-- The ordering proposition used for sorting: `strLe` as a `Prop`. -/
def strLeP (a b : String) : Prop := strLe a b = true

instance : IsAntisymm String strLeP :=
  ⟨fun a b h1 h2 => String.ext (lexLe_antisymm a.data b.data h1 h2)⟩

instance : IsTrans String strLeP :=
  ⟨fun a b c h1 h2 => lexLe_trans a.data b.data c.data h1 h2⟩

/- ### Insertion sort (`sorted` in Python), kernel-computable -/

def sortedInsert (x : String) : List String → List String
  | [] => [x]
  | y :: ys => if strLe x y then x :: y :: ys else y :: sortedInsert x ys

def isort : List String → List String
  | [] => []
  | x :: xs => sortedInsert x (isort xs)

theorem sortedInsert_perm (x : String) (l : List String) :
    List.Perm (sortedInsert x l) (x :: l) := by
  induction l with
  | nil => simp [sortedInsert]
  | cons y ys ih =>
    by_cases h : strLe x y = true
    · simp only [sortedInsert, if_pos h]
      exact List.Perm.refl _
    · simp only [sortedInsert, if_neg h]
      exact List.Perm.trans (List.Perm.cons y ih) (List.Perm.swap x y ys)

theorem isort_perm (l : List String) : List.Perm (isort l) l := by
  induction l with
  | nil => simp [isort]
  | cons x xs ih =>
    exact List.Perm.trans (sortedInsert_perm x (isort xs)) (List.Perm.cons x ih)

theorem sortedInsert_sorted (x : String) (l : List String)
    (h : List.Sorted strLeP l) : List.Sorted strLeP (sortedInsert x l) := by
  induction l with
  | nil => simp [sortedInsert]
  | cons y ys ih =>
    rw [List.sorted_cons] at h
    by_cases hxy : strLe x y = true
    · simp only [sortedInsert, if_pos hxy]
      rw [List.sorted_cons]
      refine ⟨?_, ?_⟩
      · intro b hb
        rcases List.mem_cons.mp hb with rfl | hb2
        · exact hxy
        · exact lexLe_trans _ _ _ hxy (h.1 b hb2)
      · rw [List.sorted_cons]
        exact h
    · simp only [sortedInsert, if_neg hxy]
      rw [List.sorted_cons]
      refine ⟨?_, ih h.2⟩
      intro b hb
      have hmem : b ∈ x :: ys := (sortedInsert_perm x ys).mem_iff.mp hb
      rcases List.mem_cons.mp hmem with rfl | hb2
      · exact lexLe_total _ _ (Bool.eq_false_iff.mpr hxy)
      · exact h.1 b hb2

theorem isort_sorted (l : List String) : List.Sorted strLeP (isort l) := by
  induction l with
  | nil => simp [isort]
  | cons x xs ih => exact sortedInsert_sorted x (isort xs) ih

theorem isort_canonical (l1 l2 : List String) (h : List.Perm l1 l2) :
    isort l1 = isort l2 :=
  List.eq_of_perm_of_sorted
    (List.Perm.trans (isort_perm l1) (List.Perm.trans h (isort_perm l2).symm))
    (isort_sorted l1) (isort_sorted l2)

/-- `sorted(set(xs))` from the Python source: sort the distinct elements. -/
def sortedDedup (l : List String) : List String := isort l.dedup

theorem sortedDedup_canonical (l1 l2 : List String)
    (h : ∀ w, w ∈ l1 ↔ w ∈ l2) : sortedDedup l1 = sortedDedup l2 := by
  apply isort_canonical
  apply List.perm_of_nodup_nodup_toFinset_eq (List.nodup_dedup l1) (List.nodup_dedup l2)
  apply Finset.ext
  intro w
  simp only [List.mem_toFinset, List.mem_dedup]
  exact h w

/- ### Decimal numerals

Self-contained rendering/parsing of decimal numerals (kernel-computable,
used by the `'{:02}'.format` / `int(...)` / `float(...)` models). -/

def digitsFuel : ℕ → ℕ → List ℕ
  | 0, _ => []
  | f + 1, n => if n = 0 then [] else n % 10 :: digitsFuel f (n / 10)

/-- Little-endian decimal digits of `n` (empty for 0). -/
def digitsOf (n : ℕ) : List ℕ := digitsFuel n n

def ofDigits10 : List ℕ → ℕ
  | [] => 0
  | d :: ds => d + 10 * ofDigits10 ds

def digitChar (d : ℕ) : Char := Char.ofNat (48 + d)

/-- Decimal rendering of a natural number, most significant digit first
(empty for 0; only used behind zero padding, as in the source). -/
def renderNat (n : ℕ) : List Char := (digitsOf n).reverse.map digitChar

/-- `'{:0k}'.format(n)` for a nonnegative integer: left-pad with zeros. -/
def padNat (k n : ℕ) : List Char :=
  List.replicate (k - (renderNat n).length) '0' ++ renderNat n

/-- Value of a decimal digit string, as computed by Python `int(...)` on
well-formed numerals. -/
def toNatVal (l : List Char) : ℕ := l.foldl (fun a c => 10 * a + (c.toNat - 48)) 0

theorem ofDigits10_digitsFuel (f : ℕ) : ∀ n, n ≤ f → ofDigits10 (digitsFuel f n) = n := by
  induction f with
  | zero =>
    intro n hn
    interval_cases n
    rfl
  | succ f ih =>
    intro n hn
    by_cases h0 : n = 0
    · subst h0
      simp [digitsFuel, ofDigits10]
    · rw [digitsFuel, if_neg h0]
      rw [ofDigits10, ih (n / 10) (by omega)]
      omega

theorem digitsFuel_lt (f : ℕ) : ∀ n d, d ∈ digitsFuel f n → d < 10 := by
  induction f with
  | zero => intro n d hd; simp [digitsFuel] at hd
  | succ f ih =>
    intro n d hd
    by_cases h0 : n = 0
    · subst h0; simp [digitsFuel] at hd
    · rw [digitsFuel, if_neg h0] at hd
      rcases List.mem_cons.mp hd with rfl | hd2
      · omega
      · exact ih (n / 10) d hd2

theorem digitsFuel_length_le (f : ℕ) : ∀ n k, n < 10 ^ k → (digitsFuel f n).length ≤ k := by
  induction f with
  | zero => intro n k _; simp [digitsFuel]
  | succ f ih =>
    intro n k hnk
    by_cases h0 : n = 0
    · subst h0; simp [digitsFuel]
    · rw [digitsFuel, if_neg h0]
      cases k with
      | zero => simp at hnk; omega
      | succ k' =>
        have hdiv : n / 10 < 10 ^ k' := by
          rw [Nat.div_lt_iff_lt_mul (by norm_num)]
          calc n < 10 ^ (k' + 1) := hnk
            _ = 10 ^ k' * 10 := by ring
        simpa using ih (n / 10) k' hdiv

theorem digitChar_toNat (d : ℕ) (h : d < 10) : (digitChar d).toNat = 48 + d := by
  interval_cases d <;> decide

theorem foldl_digits (ds : List ℕ) (h : ∀ d ∈ ds, d < 10) (a : ℕ) :
    List.foldl (fun a c => 10 * a + (c.toNat - 48)) a (ds.reverse.map digitChar)
      = a * 10 ^ ds.length + ofDigits10 ds := by
  induction ds generalizing a with
  | nil => simp [ofDigits10]
  | cons d ds ih =>
    have hd : d < 10 := h d (List.mem_cons_self d ds)
    have hds : ∀ x ∈ ds, x < 10 := fun x hx => h x (List.mem_cons_of_mem d hx)
    simp only [List.reverse_cons, List.map_append, List.map_cons, List.map_nil,
      List.foldl_append, List.foldl_cons, List.foldl_nil]
    rw [ih hds a, digitChar_toNat d hd, ofDigits10]
    have : 48 + d - 48 = d := by omega
    rw [this, List.length_cons, pow_succ]
    ring

theorem toNatVal_renderNat (n : ℕ) : toNatVal (renderNat n) = n := by
  unfold toNatVal renderNat
  rw [foldl_digits (digitsOf n) (fun d hd => digitsFuel_lt n n d hd) 0]
  simp [digitsOf, ofDigits10_digitsFuel n n le_rfl]

theorem toNatVal_padNat (k n : ℕ) : toNatVal (padNat k n) = n := by
  unfold toNatVal padNat
  rw [List.foldl_append]
  have hz : ∀ m, List.foldl (fun a c => 10 * a + (c.toNat - 48)) 0 (List.replicate m '0') = 0 := by
    intro m
    induction m with
    | zero => rfl
    | succ m ih => simpa [List.replicate_succ] using ih
  rw [hz]
  exact toNatVal_renderNat n

theorem padNat_length (k n : ℕ) (h : n < 10 ^ k) : (padNat k n).length = k := by
  unfold padNat
  have hlen : (renderNat n).length ≤ k := by
    unfold renderNat digitsOf
    simpa using digitsFuel_length_le n n k h
  simp [List.length_append, List.length_replicate]
  omega

theorem mem_padNat_range (k n : ℕ) (c : Char) (hc : c ∈ padNat k n) :
    48 ≤ c.toNat ∧ c.toNat ≤ 57 := by
  unfold padNat at hc
  rcases List.mem_append.mp hc with h | h
  · have : c = '0' := List.eq_of_mem_replicate h
    subst this
    decide
  · unfold renderNat at h
    rcases List.mem_map.mp h with ⟨d, hd, rfl⟩
    have hd10 : d < 10 := digitsFuel_lt n n d (by simpa [digitsOf] using hd)
    rw [digitChar_toNat d hd10]
    omega

theorem colon_not_mem_padNat (k n : ℕ) : (':' : Char) ∉ padNat k n := by
  intro h
  have := mem_padNat_range k n _ h
  revert this
  decide

theorem dot_not_mem_padNat (k n : ℕ) : ('.' : Char) ∉ padNat k n := by
  intro h
  have := mem_padNat_range k n _ h
  revert this
  decide

/- ### Splitting (`s.split(sep)` with an explicit separator) -/

def splitOnChar (sep : Char) : List Char → List (List Char)
  | [] => [[]]
  | c :: rest =>
    if c = sep then [] :: splitOnChar sep rest
    else
      match splitOnChar sep rest with
      | [] => [[c]]
      | g :: gs => (c :: g) :: gs

theorem splitOnChar_ne_nil (sep : Char) (l : List Char) : splitOnChar sep l ≠ [] := by
  cases l with
  | nil => simp [splitOnChar]
  | cons c rest =>
    by_cases h : c = sep
    · simp [splitOnChar, h]
    · simp only [splitOnChar, if_neg h]
      cases splitOnChar sep rest <;> simp

theorem splitOnChar_no_sep (sep : Char) (l : List Char) (h : sep ∉ l) :
    splitOnChar sep l = [l] := by
  induction l with
  | nil => rfl
  | cons c rest ih =>
    have hc : ¬ c = sep := fun hh => h (hh ▸ List.mem_cons_self c rest)
    have hrest : sep ∉ rest := fun hh => h (List.mem_cons_of_mem c hh)
    rw [splitOnChar, if_neg hc, ih hrest]

theorem splitOnChar_append (sep : Char) (a b : List Char) (h : sep ∉ a) :
    splitOnChar sep (a ++ sep :: b) = a :: splitOnChar sep b := by
  induction a with
  | nil => simp [splitOnChar]
  | cons c a' ih =>
    have hc : ¬ c = sep := fun hh => h (hh ▸ List.mem_cons_self c a')
    have ha' : sep ∉ a' := fun hh => h (List.mem_cons_of_mem c hh)
    rw [List.cons_append, splitOnChar, if_neg hc, ih ha']

/- ### Time codes — exact model over ℚ

`parse_vtt_time` and `format_vtt_time` from server.py, with Python `float`
arithmetic idealized as exact rational arithmetic (see the `_fp` variants
below for the IEEE-754 double model).  `math.floor` is `Int.floor`; Python
`%` on nonnegative operands is `Int.emod`. -/

theorem data_mk (l : List Char) : (String.mk l).data = l := rfl

/-- `float(tok)` on a decimal literal such as `"01.001"`, as an exact
rational value. -/
def parseDecimalChars (l : List Char) : ℚ :=
  match splitOnChar '.' l with
  | [] => 0
  | [i] => (toNatVal i : ℚ)
  | i :: f :: _ => (toNatVal i : ℚ) + (toNatVal f : ℚ) / (10 : ℚ) ^ f.length

/-- `parse_vtt_time` (server.py) on the character list of the input: split on
`':'`, read the last token as a decimal seconds value, the second-to-last as
minutes, and, when there are exactly three tokens, the first as hours. -/
def parse_vtt_chars (l : List Char) : ℚ :=
  let tokens := splitOnChar ':' l
  let rev := tokens.reverse
  let seconds := parseDecimalChars (rev.headD []) + (toNatVal (rev.tail.headD []) : ℚ) * 60
  if tokens.length = 3 then seconds + (toNatVal (tokens.headD []) : ℚ) * 3600 else seconds

def parse_vtt_time (s : String) : ℚ := parse_vtt_chars s.data

def vtt_millis (t : ℚ) : ℤ := ⌊t * 1000⌋ % 1000

def vtt_seconds (t : ℚ) : ℤ := ⌊t⌋ % 60

def vtt_minutes (t : ℚ) : ℤ := ⌊t / 60⌋ % 60

def vtt_hours (t : ℚ) : ℤ := ⌊t / 3600⌋

/-- The four-field rendering `HH:MM:SS.mmm` (all fields zero-padded, hours
not wrapped). -/
def timeChars3 (hh mm ss mmm : ℕ) : List Char :=
  padNat 2 hh ++ (':' :: (padNat 2 mm ++ (':' :: (padNat 2 ss ++ ('.' :: padNat 3 mmm)))))

/-- The two-field rendering `MM:SS.mmm`. -/
def timeChars2 (mm ss mmm : ℕ) : List Char :=
  padNat 2 mm ++ (':' :: (padNat 2 ss ++ ('.' :: padNat 3 mmm)))

/-- `format_vtt_time` (server.py): `'{:02}:{:02}:{:02}.{:03}'.format(...)`,
for nonnegative times (the only ones the system produces). -/
def format_vtt_time (t : ℚ) : String :=
  String.mk (timeChars3 (vtt_hours t).toNat (vtt_minutes t).toNat
    (vtt_seconds t).toNat (vtt_millis t).toNat)

theorem parseDecimal_pad (ss mmm : ℕ) (hmmm : mmm < 1000) :
    parseDecimalChars (padNat 2 ss ++ ('.' :: padNat 3 mmm))
      = (ss : ℚ) + (mmm : ℚ) / 1000 := by
  have hsplit : splitOnChar '.' (padNat 2 ss ++ ('.' :: padNat 3 mmm))
      = [padNat 2 ss, padNat 3 mmm] := by
    rw [splitOnChar_append '.' _ _ (dot_not_mem_padNat 2 ss),
      splitOnChar_no_sep '.' _ (dot_not_mem_padNat 3 mmm)]
  simp only [parseDecimalChars, hsplit]
  rw [toNatVal_padNat, toNatVal_padNat, padNat_length 3 mmm (by norm_num; omega)]
  norm_num

theorem parse_timeChars2 (mm ss mmm : ℕ) (hmmm : mmm < 1000) :
    parse_vtt_chars (timeChars2 mm ss mmm)
      = 60 * (mm : ℚ) + (ss : ℚ) + (mmm : ℚ) / 1000 := by
  have hns : (':' : Char) ∉ padNat 2 ss ++ ('.' :: padNat 3 mmm) := by
    intro hmem
    rcases List.mem_append.mp hmem with h | h
    · exact colon_not_mem_padNat 2 ss h
    · rcases List.mem_cons.mp h with h2 | h2
      · exact absurd h2.symm (by decide)
      · exact colon_not_mem_padNat 3 mmm h2
  have hsplit : splitOnChar ':' (timeChars2 mm ss mmm)
      = [padNat 2 mm, padNat 2 ss ++ ('.' :: padNat 3 mmm)] := by
    unfold timeChars2
    rw [splitOnChar_append ':' _ _ (colon_not_mem_padNat 2 mm),
      splitOnChar_no_sep ':' _ hns]
  unfold parse_vtt_chars
  rw [hsplit]
  simp only [List.reverse_cons, List.reverse_nil, List.nil_append, List.length_cons,
    List.length_nil, List.headD_cons, List.tail_cons]
  norm_num
  rw [parseDecimal_pad ss mmm hmmm, toNatVal_padNat]
  ring

theorem parse_timeChars3 (hh mm ss mmm : ℕ) (hmmm : mmm < 1000) :
    parse_vtt_chars (timeChars3 hh mm ss mmm)
      = 3600 * (hh : ℚ) + 60 * (mm : ℚ) + (ss : ℚ) + (mmm : ℚ) / 1000 := by
  have hns : (':' : Char) ∉ padNat 2 ss ++ ('.' :: padNat 3 mmm) := by
    intro hmem
    rcases List.mem_append.mp hmem with h | h
    · exact colon_not_mem_padNat 2 ss h
    · rcases List.mem_cons.mp h with h2 | h2
      · exact absurd h2.symm (by decide)
      · exact colon_not_mem_padNat 3 mmm h2
  have hsplit : splitOnChar ':' (timeChars3 hh mm ss mmm)
      = [padNat 2 hh, padNat 2 mm, padNat 2 ss ++ ('.' :: padNat 3 mmm)] := by
    unfold timeChars3
    rw [splitOnChar_append ':' _ _ (colon_not_mem_padNat 2 hh),
      splitOnChar_append ':' _ _ (colon_not_mem_padNat 2 mm),
      splitOnChar_no_sep ':' _ hns]
  unfold parse_vtt_chars
  rw [hsplit]
  simp only [List.reverse_cons, List.reverse_nil, List.nil_append, List.length_cons,
    List.length_nil, List.headD_cons, List.tail_cons]
  norm_num
  rw [parseDecimal_pad ss mmm hmmm, toNatVal_padNat, toNatVal_padNat]
  ring

theorem int_floor_eq_nat (x : ℚ) (hx : 0 ≤ x) : ⌊x⌋ = ((⌊x⌋₊ : ℕ) : ℤ) := by
  rw [← Int.floor_toNat, Int.toNat_of_nonneg (Int.floor_nonneg.mpr hx)]

theorem natFloor_div_scale (t : ℚ) (d : ℕ) (hd : 0 < d) :
    ⌊t / (d : ℚ)⌋₊ = ⌊t * 1000⌋₊ / (1000 * d) := by
  have h1 : t / (d : ℚ) = (t * 1000) / ((1000 * d : ℕ) : ℚ) := by
    have hd0 : ((d : ℚ)) ≠ 0 := by positivity
    push_cast
    field_simp
    ring
  rw [h1, Nat.floor_div_nat]

theorem vtt_fields (t : ℚ) (ht : 0 ≤ t) :
    (vtt_millis t).toNat = ⌊t * 1000⌋₊ % 1000
    ∧ (vtt_seconds t).toNat = ⌊t * 1000⌋₊ / 1000 % 60
    ∧ (vtt_minutes t).toNat = ⌊t * 1000⌋₊ / 60000 % 60
    ∧ (vtt_hours t).toNat = ⌊t * 1000⌋₊ / 3600000 := by
  have hms : ⌊t * 1000⌋ = ((⌊t * 1000⌋₊ : ℕ) : ℤ) :=
    int_floor_eq_nat _ (mul_nonneg ht (by norm_num))
  have h0 : ⌊t⌋₊ = ⌊t * 1000⌋₊ / 1000 := by
    have h := natFloor_div_scale t 1 one_pos
    simpa using h
  have h60 : ⌊t / 60⌋₊ = ⌊t * 1000⌋₊ / 60000 := by
    have h := natFloor_div_scale t 60 (by norm_num)
    norm_num at h
    exact h
  have h3600 : ⌊t / 3600⌋₊ = ⌊t * 1000⌋₊ / 3600000 := by
    have h := natFloor_div_scale t 3600 (by norm_num)
    norm_num at h
    exact h
  have hsec : ⌊t⌋ = ((⌊t⌋₊ : ℕ) : ℤ) := int_floor_eq_nat _ ht
  have hminf : ⌊t / 60⌋ = ((⌊t / 60⌋₊ : ℕ) : ℤ) :=
    int_floor_eq_nat _ (div_nonneg ht (by norm_num))
  have hhf : ⌊t / 3600⌋ = ((⌊t / 3600⌋₊ : ℕ) : ℤ) :=
    int_floor_eq_nat _ (div_nonneg ht (by norm_num))
  refine ⟨?_, ?_, ?_, ?_⟩
  · unfold vtt_millis
    rw [hms]
    omega
  · unfold vtt_seconds
    rw [hsec, h0]
    omega
  · unfold vtt_minutes
    rw [hminf, h60]
    omega
  · unfold vtt_hours
    rw [hhf, h3600]
    omega

/-- Exact-arithmetic round trip: formatting a nonnegative time and parsing it
back yields the time truncated to whole milliseconds. -/
theorem vtt_roundtrip_exact (t : ℚ) (ht : 0 ≤ t) :
    parse_vtt_time (format_vtt_time t) = ((⌊t * 1000⌋₊ : ℕ) : ℚ) / 1000 := by
  obtain ⟨hms, hs, hm, hh⟩ := vtt_fields t ht
  unfold parse_vtt_time format_vtt_time
  rw [data_mk, hms, hs, hm, hh, parse_timeChars3 _ _ _ _ (by omega)]
  have hNat : 3600000 * (⌊t * 1000⌋₊ / 3600000) + 60000 * (⌊t * 1000⌋₊ / 60000 % 60)
      + 1000 * (⌊t * 1000⌋₊ / 1000 % 60) + ⌊t * 1000⌋₊ % 1000 = ⌊t * 1000⌋₊ := by
    omega
  rw [eq_div_iff (by norm_num : (1000 : ℚ) ≠ 0)]
  have hcast := congrArg (fun n : ℕ => (n : ℚ)) hNat
  push_cast at hcast
  linarith

/- ### Time codes — IEEE-754 double model (`_fp` definitions)

Python `float` is a binary64 double.  `ℚ` operations do not kernel-reduce,
so doubles are modelled over explicit numerator/denominator pairs: `⟨n, d⟩`
denotes `n / d`, and every constructor below keeps `d` positive.  A double is
an exact rational `m · 2^e` with `|m| < 2^53`; `QP.roundDouble` is
round-to-nearest, ties-to-even (sub-normals and overflow do not occur in the
range exercised here). -/

structure QP where
  num : ℤ
  den : ℕ
deriving DecidableEq

def QP.ofNat (n : ℕ) : QP := ⟨(n : ℤ), 1⟩

def QP.add (a b : QP) : QP := ⟨a.num * b.den + b.num * a.den, a.den * b.den⟩

def QP.mul (a b : QP) : QP := ⟨a.num * b.num, a.den * b.den⟩

def QP.neg (a : QP) : QP := ⟨-a.num, a.den⟩

def QP.div (a b : QP) : QP :=
  if b.num < 0 then ⟨-a.num * b.den, a.den * (-b.num).toNat⟩
  else ⟨a.num * b.den, a.den * b.num.toNat⟩

def QP.ltb (a b : QP) : Bool := decide (a.num * b.den < b.num * a.den)

/-- `⌊a⌋` (floor division of the numerator by the positive denominator). -/
def QP.floor (a : QP) : ℤ := Int.fdiv a.num a.den

/-- Fuel-driven `⌊log₂ n⌋` (0 for `n ≤ 1`); structural recursion so the
kernel can evaluate it. -/
def lg2Fuel : ℕ → ℕ → ℕ
  | 0, _ => 0
  | f + 1, n => if n ≤ 1 then 0 else lg2Fuel f (n / 2) + 1

def natLog2 (n : ℕ) : ℕ := lg2Fuel n n

def QP.pow2 (z : ℤ) : QP := if 0 ≤ z then ⟨2 ^ z.toNat, 1⟩ else ⟨1, 2 ^ (-z).toNat⟩

/-- For `q > 0`: the unique `z` with `2^z ≤ q < 2^(z+1)`, computed from the
bit lengths of numerator and denominator plus one comparison. -/
def QP.ilog2 (q : QP) : ℤ :=
  let z0 : ℤ := (natLog2 q.num.toNat : ℤ) - (natLog2 q.den : ℤ)
  if QP.ltb q (QP.pow2 z0) then z0 - 1 else z0

/-- Nearest integer, ties to even. -/
def QP.roundHalfEven (q : QP) : ℤ :=
  let f := q.floor
  let r2 := 2 * (q.num - f * q.den)
  if r2 < (q.den : ℤ) then f
  else if (q.den : ℤ) < r2 then f + 1
  else if f % 2 = 0 then f else f + 1

def QP.roundDoublePos (q : QP) : QP :=
  let z := QP.ilog2 q
  let scale := QP.pow2 (z - 52)
  let m := QP.roundHalfEven (QP.div q scale)
  QP.mul ⟨m, 1⟩ scale

/-- Round an exact rational to the nearest binary64 double. -/
def QP.roundDouble (q : QP) : QP :=
  if q.num = 0 then ⟨0, 1⟩
  else if q.num < 0 then QP.neg (QP.roundDoublePos (QP.neg q))
  else QP.roundDoublePos q

/-- Sanity: the doubles nearest to 1.001 and 1/3 are the well-known
`4508103226997866 / 2^52` and `6004799503160661 / 2^54`. -/
theorem roundDouble_sanity :
    QP.roundDouble ⟨1001, 1000⟩ = ⟨4508103226997866, 4503599627370496⟩
    ∧ QP.roundDouble ⟨1, 3⟩ = ⟨6004799503160661, 18014398509481984⟩ := by
  constructor <;> decide

/-- Float addition: exact sum, then rounding — IEEE-754 semantics. -/
def fadd (a b : QP) : QP := QP.roundDouble (QP.add a b)

def fmul (a b : QP) : QP := QP.roundDouble (QP.mul a b)

def fdivf (a b : QP) : QP := QP.roundDouble (QP.div a b)

/-- `float(tok)` on a decimal literal: the double nearest to its value. -/
def parseDecimalChars_fp (l : List Char) : QP :=
  match splitOnChar '.' l with
  | [] => ⟨0, 1⟩
  | [i] => QP.roundDouble ⟨(toNatVal i : ℤ), 1⟩
  | i :: f :: _ =>
    QP.roundDouble ⟨(toNatVal i * 10 ^ f.length + toNatVal f : ℕ), 10 ^ f.length⟩

/-- `parse_vtt_time` with Python-float arithmetic: the minute (and hour)
products are exact integers, converted exactly and added with float adds. -/
def parse_vtt_time_fp (s : String) : QP :=
  let tokens := splitOnChar ':' s.data
  let rev := tokens.reverse
  let seconds := fadd (parseDecimalChars_fp (rev.headD []))
    (QP.ofNat (toNatVal (rev.tail.headD []) * 60))
  if tokens.length = 3 then fadd seconds (QP.ofNat (toNatVal (tokens.headD []) * 3600))
  else seconds

/-- `format_vtt_time` with Python-float arithmetic: `t * 1000`, `t / 60`
and `t / 3600` are float operations, `math.floor` and `%` are exact. -/
def format_vtt_time_fp (t : QP) : String :=
  let millis := QP.floor (fmul t (QP.ofNat 1000)) % 1000
  let seconds := QP.floor t % 60
  let minutes := QP.floor (fdivf t (QP.ofNat 60)) % 60
  let hours := QP.floor (fdivf t (QP.ofNat 3600))
  String.mk (timeChars3 hours.toNat minutes.toNat seconds.toNat millis.toNat)

/- ### Dictionary store (nlp/translate.py) -/

/-- `defaultdict(set)` keyed by source word: a word maps to its set of
candidate translations (modelled as a duplicate-free list in insertion
order). -/
abbrev Dict := List (String × List String)

def insertSet (l : List String) (v : String) : List String :=
  if v ∈ l then l else l ++ [v]

/-- `dictionary[k].add(v)`: a fresh key is appended, an existing key keeps
its position. -/
def alAdd (d : Dict) (k v : String) : Dict :=
  match alGet d k with
  | some s => alSet d k (insertSet s v)
  | none => d ++ [(k, insertSet [] v)]

/-- ASCII fragment of Python whitespace (`\s`, `str.strip`). -/
def pyIsSpace (c : Char) : Bool :=
  (c = ' ') || (c = '\t') || (c = '\n') || (c = '\r') || (c.toNat = 11) || (c.toNat = 12)

def stripChars (l : List Char) : List Char :=
  ((l.dropWhile pyIsSpace).reverse.dropWhile pyIsSpace).reverse

def lastSpacePos (l : List Char) : Option ℕ :=
  match l.reverse.findIdx? pyIsSpace with
  | none => none
  | some j => some (l.length - 1 - j)

/-- `DICT_RE = ^(.+)\s+(.+)$` matched against the stripped line: the greedy
first group makes the split happen at the last whitespace character; both
groups must be nonempty. -/
def parseDictLine (l : List Char) : Option (List Char × List Char) :=
  let t := stripChars l
  match lastSpacePos t with
  | none => none
  | some p =>
    if 1 ≤ p ∧ p + 1 < t.length then some (t.take p, t.drop (p + 1)) else none

inductive DictError
  | missingDictionary (src dst : String)
  | emptyDictionary
deriving DecidableEq

def dictFileName (src dst : String) : String := src ++ "-" ++ dst ++ ".txt"

/-- Fold the lines of one dictionary file into the table.  A forward file
line `s d` adds `dictionary[s].add(d)`; a reverse file line `d s` (read with
`swap = true`) adds `dictionary[s].add(d)` as well. -/
def foldDictLines (swap : Bool) (d : Dict) (lines : List String) : Dict :=
  lines.foldl (fun d line =>
    match parseDictLine line.data with
    | some (g1, g2) =>
      if swap then alAdd d (String.mk g2) (String.mk g1)
      else alAdd d (String.mk g1) (String.mk g2)
    | none => d) d

/-- `load_dictionary` (nlp/translate.py).  The dictionary directory is the
function `fs` from file name to lines (`none` = file absent); `jmdict` is
the supplementary-lexicon pair list yielded by `load_jmdict` (already
filtered to short glosses), merged in when the source language is Japanese.
The missing-file `NotImplementedError('Missing dictionary: ...')` is
`DictError.missingDictionary`; the final `assert len(dictionary) > 0` is
`DictError.emptyDictionary`. -/
def load_dictionary (fs : String → Option (List String)) (jmdict : List (String × String))
    (src dst : String) : Except DictError Dict :=
  match fs (dictFileName src dst) with
  | none => .error (.missingDictionary src dst)
  | some fwd =>
    let d1 := foldDictLines false [] fwd
    match fs (dictFileName dst src) with
    | none => .error (.missingDictionary dst src)
    | some rev =>
      let d2 := foldDictLines true d1 rev
      let d3 := if src = "ja" then jmdict.foldl (fun d p => alAdd d p.1 p.2) d2 else d2
      if d3.isEmpty then .error .emptyDictionary else .ok d3

/-- Python `str.lower()` (ASCII case folding, which covers the dictionaries
and examples exercised here). -/
def strToLower (s : String) : String := String.mk (s.data.map Char.toLower)

/-- `WordTranslator.translate` (nlp/translate.py): look the *lowercased*
word up in the dictionary; `None` when absent. -/
def WordTranslator.translate (dict : Dict) (word : String) : Option (List String) :=
  alGet dict (strToLower word)

inductive TransError
  | notFound
  | unsupportedPartOfSpeech
deriving DecidableEq

def allowedPos : List String := ["NOUN", "ADJ", "VERB", "PRON", "ADV", "PROPN", "ADP"]

/-- Modelled from the spec: `Translator.word`.  `server.py` imports a
`Translator` class from `nlp.translate` whose definition is not in the
source tree (only `SentenceTranslator` and `WordTranslator` are present).
Per spec §4.4, `word(w, tag)` fails with UnsupportedPartOfSpeechError when
`tag` is outside the fixed allowed set {NOUN, ADJ, VERB, PRON, ADV, PROPN,
ADP}, fails with NotFoundError when the dictionary-backed lookup
(`WordTranslator.translate`) has no entry for `w`, and otherwise returns
the translation. -/
def Translator.word (dict : Dict) (w tag : String) : Except TransError (List String) :=
  if tag ∈ allowedPos then
    match WordTranslator.translate dict w with
    | some t => .ok t
    | none => .error .notFound
  else .error .unsupportedPartOfSpeech

theorem toLower_not_upper (c : Char) : (Char.toLower c).isUpper = false := by
  unfold Char.toLower Char.isUpper
  by_cases h : c.toNat ≥ 65 ∧ c.toNat ≤ 90
  · simp only [if_pos h]
    have hv : Nat.isValidChar (c.toNat + 32) := Or.inl (by omega)
    rw [Char.ofNat, dif_pos hv]
    have h2 : (Char.ofNatAux (c.toNat + 32) hv).val.toNat = c.toNat + 32 := by
      simp [Char.ofNatAux, UInt32.ofNat', UInt32.toNat]
    by_cases hle : (Char.ofNatAux (c.toNat + 32) hv).val ≤ 90
    · exfalso
      have h3 : (Char.ofNatAux (c.toNat + 32) hv).val.toNat ≤ 90 := hle
      omega
    · simp [hle]
  · simp only [if_neg h]
    rcases not_and_or.mp h with h2 | h2
    · have h3 : ¬ (65 : UInt32) ≤ c.val := by
        intro hc
        have h4 : (65 : UInt32).toNat ≤ c.val.toNat := hc
        exact h2 (by exact h4)
      simp [h3]
    · have h3 : ¬ c.val ≤ (90 : UInt32) := by
        intro hc
        have h4 : c.val.toNat ≤ (90 : UInt32).toNat := hc
        exact h2 (by exact h4)
      simp [h3]

/-- A lowercased string never contains an uppercase character, so a
dictionary key containing one can never equal any lookup key. -/
theorem strToLower_ne_of_hasUpper (k w : String)
    (h : k.data.any Char.isUpper = true) : strToLower w ≠ k := by
  intro he
  rcases List.any_eq_true.mp h with ⟨c, hc, hup⟩
  rw [← he] at hc
  rcases List.mem_map.mp hc with ⟨c', _, rfl⟩
  rw [toLower_not_upper c'] at hup
  exact Bool.noConfusion hup

/- ### Taggers (nlp/tagger.py)

The external engines (spaCy, nagisa, pkuseg) are out of scope; each tagger
is parameterized by its engine as a function from text to a list of
(surface form, engine-native tag) pairs, exactly the data the Python code
consumes from them. -/

structure Token where
  text : String
  tag : Option String
deriving DecidableEq

/-- `JapaneseTagger.POS_TAG`. -/
def japanesePosTag : List (String × String) :=
  [("名詞", "NOUN"), ("動詞", "VERB"), ("記号", "SYM"), ("副詞", "ADV"),
   ("形容詞", "ADJ"), ("接尾辞", "suffix"), ("代名詞", "PRON"),
   ("助動詞", "VERB"), ("助詞", "PART"), ("補助記号", "PUNCT"),
   ("英単語", "english"), ("漢文", "chinese"), ("ローマ字文", "romanji")]

/-- `ChineseTagger.POS_TAG`. -/
def chinesePosTag : List (String × String) :=
  [("c", "CONJ"), ("v", "VERB"), ("vn", "VERB"), ("vx", "VERB"), ("n", "NOUN"),
   ("a", "ADJ"), ("d", "ADV"), ("ad", "ADV"), ("nr", "PROPN"), ("ns", "PROPN"),
   ("nt", "PROPN"), ("r", "PRON"), ("u", "PART"), ("i", "IDIOM")]

/-- `SpacyTagger.tag`: the engine-native `pos_` string is passed through
verbatim — no mapping table, and the tag is never absent. -/
def SpacyTagger.tag (engine : String → List (String × String)) (text : String) :
    List Token :=
  if text = "" then [] else (engine text).map (fun p => ⟨p.1, some p.2⟩)

/-- `JapaneseTagger.tag`: `POS_TAG.get(t, None)`. -/
def JapaneseTagger.tag (engine : String → List (String × String)) (text : String) :
    List Token :=
  if text = "" then [] else (engine text).map (fun p => ⟨p.1, alGet japanesePosTag p.2⟩)

/-- `ChineseTagger.tag`: `POS_TAG.get(t, None)`. -/
def ChineseTagger.tag (engine : String → List (String × String)) (text : String) :
    List Token :=
  if text = "" then [] else (engine text).map (fun p => ⟨p.1, alGet chinesePosTag p.2⟩)

/-- The fixed universal tag set named by the spec. -/
def universalTagSet : List String :=
  ["NOUN", "VERB", "ADJ", "ADV", "PRON", "PROPN", "ADP", "PART", "CONJ", "SYM", "PUNCT"]

/-- The language-specific extension tags (the values of the static tables
outside the universal set, plus the spec's own example "idiom"). -/
def extensionTagSet : List String :=
  ["suffix", "idiom", "english", "chinese", "romanji", "IDIOM"]

theorem alGet_mem_values {β : Type} (l : List (String × β)) (k : String) (v : β)
    (h : alGet l k = some v) : v ∈ l.map Prod.snd := by
  induction l with
  | nil => simp [alGet] at h
  | cons hd tl ih =>
    obtain ⟨k', v'⟩ := hd
    by_cases hk : k' = k
    · simp only [alGet, if_pos hk, Option.some.injEq] at h
      simp [h]
    · simp only [alGet, if_neg hk] at h
      simp [ih h]

/- ### Translation cache (server.py: translate_sub_words) -/

/-- A persisted cache record: the JSON word-to-translation mapping. -/
abbrev TransDict := List (String × Option (List String))

/-- The cache directory: cache file path ↦ stored record. -/
abbrev CacheState := List (String × TransDict)

/-- `''.join(sorted(set(w[0] for w in words)))` — the digest input. -/
def content_hash_input (words : List (String × String)) : String :=
  String.join (sortedDedup (words.map Prod.fst))

/-- `get_translation_cache_path` (server.py). -/
def get_translation_cache_path (video_dir src_lang dst_lang content_hash : String) :
    String :=
  video_dir ++ "/cached/" ++ src_lang ++ "." ++ dst_lang ++ "." ++ content_hash ++ ".json"

/-- One iteration of the miss loop: `trans_dict[w] = translator.word(w, tag)`
guarded by `try/except` — any error is logged and the word is skipped. -/
def transStep (dict : Dict) (td : TransDict) (wt : String × String) : TransDict :=
  match Translator.word dict wt.1 wt.2 with
  | .ok t => alSet td wt.1 (some t)
  | .error _ => td

structure ResolveOutcome where
  mapping : TransDict
  cache : CacheState
  translatorCalls : ℕ
deriving DecidableEq

/-- `translate_sub_words` (server.py).  `md5_hash` is the uninterpreted
digest, `dict` the dictionary backing the (spec-modelled) translator, `st`
the cache directory.  On a hit the stored record is returned with no
translator calls; on a miss every token is attempted once and the full
mapping is written to the cache exactly once. -/
def translate_sub_words (md5_hash : String → String) (dict : Dict) (st : CacheState)
    (video_dir src_lang dst_lang : String) (words : List (String × String)) :
    ResolveOutcome :=
  let cache_path := get_translation_cache_path video_dir src_lang dst_lang
    (md5_hash (content_hash_input words))
  match alGet st cache_path with
  | some d => ⟨d, st, 0⟩
  | none =>
    let d := words.foldl (transStep dict) []
    ⟨d, alSet st cache_path d, words.length⟩

/-- `translator.word(w, tag)` succeeds iff the tag is allowed and the
dictionary has an entry for the lowercased word. -/
def wordSucceeds (dict : Dict) (w tag : String) : Bool :=
  decide (tag ∈ allowedPos) && (WordTranslator.translate dict w).isSome

theorem word_eq_ok (dict : Dict) (w tag : String)
    (h : wordSucceeds dict w tag = true) :
    Translator.word dict w tag = .ok ((WordTranslator.translate dict w).getD []) := by
  unfold wordSucceeds at h
  simp only [Bool.and_eq_true, decide_eq_true_eq] at h
  obtain ⟨h1, h2⟩ := h
  unfold Translator.word
  rw [if_pos h1]
  rcases Option.isSome_iff_exists.mp h2 with ⟨t, ht⟩
  rw [ht]
  simp

theorem word_eq_error (dict : Dict) (w tag : String)
    (h : wordSucceeds dict w tag = false) :
    ∃ e, Translator.word dict w tag = .error e := by
  unfold wordSucceeds at h
  unfold Translator.word
  by_cases h1 : tag ∈ allowedPos
  · rw [if_pos h1]
    cases hW : WordTranslator.translate dict w with
    | none =>
      exact ⟨.notFound, rfl⟩
    | some t =>
      exfalso
      rw [hW] at h
      simp [h1] at h
  · rw [if_neg h1]
    exact ⟨.unsupportedPartOfSpeech, rfl⟩

theorem transStep_skip (dict : Dict) (td : TransDict) (wt : String × String)
    (h : wordSucceeds dict wt.1 wt.2 = false) : transStep dict td wt = td := by
  rcases word_eq_error dict wt.1 wt.2 h with ⟨e, he⟩
  simp [transStep, he]

theorem transStep_set (dict : Dict) (td : TransDict) (wt : String × String)
    (h : wordSucceeds dict wt.1 wt.2 = true) :
    transStep dict td wt
      = alSet td wt.1 (some ((WordTranslator.translate dict wt.1).getD [])) := by
  simp [transStep, word_eq_ok dict wt.1 wt.2 h]

/-- Closed form of the mapping built on a cache miss: a word is present iff
some requested (word, tag) pair for it succeeds, and its value depends only
on the word. -/
theorem alGet_foldl_transStep (dict : Dict) (ws : List (String × String)) :
    ∀ (td : TransDict) (w : String),
    alGet (ws.foldl (transStep dict) td) w =
      if ws.any (fun wt => wt.1 == w && wordSucceeds dict wt.1 wt.2)
      then some (some ((WordTranslator.translate dict w).getD []))
      else alGet td w := by
  induction ws with
  | nil =>
    intro td w
    simp
  | cons wt ws ih =>
    intro td w
    rw [List.foldl_cons, ih (transStep dict td wt) w, List.any_cons]
    by_cases hp : (wt.1 == w && wordSucceeds dict wt.1 wt.2) = true
    · have hp2 := hp
      simp only [Bool.and_eq_true] at hp2
      obtain ⟨he, hs⟩ := hp2
      have he' : wt.1 = w := by simpa using he
      by_cases hr : ws.any (fun wt => wt.1 == w && wordSucceeds dict wt.1 wt.2) = true
      · simp [hp, hr]
      · simp only [hp, hr, Bool.true_or, if_true, Bool.false_eq_true, if_false, if_neg,
          ite_false]
        rw [transStep_set dict td wt hs, he', alGet_alSet_self]
    · have hskip : alGet (transStep dict td wt) w = alGet td w := by
        by_cases hs : wordSucceeds dict wt.1 wt.2 = true
        · have hne : wt.1 ≠ w := by
            intro he
            refine hp ?_
            rw [← he]
            simp [hs]
          rw [transStep_set dict td wt hs]
          exact alGet_alSet_ne td wt.1 w _ (fun hh => hne hh.symm)
        · rw [transStep_skip dict td wt (by simpa using hs)]
      simp only [hp, Bool.false_or, if_neg, ite_false]
      rw [hskip]

theorem mem_iff_of_toFinset_eq {α : Type} [DecidableEq α] (l1 l2 : List α)
    (h : l1.toFinset = l2.toFinset) : ∀ a, a ∈ l1 ↔ a ∈ l2 := by
  intro a
  rw [← List.mem_toFinset, h, List.mem_toFinset]

theorem mem_map_fst_iff (ws1 ws2 : List (String × String))
    (h : ∀ p, p ∈ ws1 ↔ p ∈ ws2) :
    ∀ w, w ∈ ws1.map Prod.fst ↔ w ∈ ws2.map Prod.fst := by
  intro w
  simp only [List.mem_map]
  constructor
  · rintro ⟨p, hp, rfl⟩
    exact ⟨p, (h p).mp hp, rfl⟩
  · rintro ⟨p, hp, rfl⟩
    exact ⟨p, (h p).mpr hp, rfl⟩

theorem any_eq_of_mem_iff {α : Type} (l1 l2 : List α)
    (h : ∀ a, a ∈ l1 ↔ a ∈ l2) (p : α → Bool) : l1.any p = l2.any p := by
  cases hb1 : l1.any p with
  | true =>
    rcases List.any_eq_true.mp hb1 with ⟨x, hx, hpx⟩
    exact (List.any_eq_true.mpr ⟨x, (h x).mp hx, hpx⟩).symm
  | false =>
    cases hb2 : l2.any p with
    | false => rfl
    | true =>
      rcases List.any_eq_true.mp hb2 with ⟨x, hx, hpx⟩
      rw [← hb1]
      exact List.any_eq_true.mpr ⟨x, (h x).mpr hx, hpx⟩

/-- The digest input depends only on the set of requested word texts. -/
theorem content_hash_input_eq (ws1 ws2 : List (String × String))
    (h : ∀ w, w ∈ ws1.map Prod.fst ↔ w ∈ ws2.map Prod.fst) :
    content_hash_input ws1 = content_hash_input ws2 :=
  congrArg String.join (sortedDedup_canonical _ _ h)

/-- After any call, a second call whose token list yields the same digest
input is served from the cache: same mapping, unchanged cache state, zero
translator calls. -/
theorem translate_sub_words_second (md5_hash : String → String) (dict : Dict)
    (st : CacheState) (video_dir src_lang dst_lang : String)
    (ws1 ws2 : List (String × String))
    (hci : content_hash_input ws2 = content_hash_input ws1) :
    translate_sub_words md5_hash dict
        (translate_sub_words md5_hash dict st video_dir src_lang dst_lang ws1).cache
        video_dir src_lang dst_lang ws2
      = ⟨(translate_sub_words md5_hash dict st video_dir src_lang dst_lang ws1).mapping,
         (translate_sub_words md5_hash dict st video_dir src_lang dst_lang ws1).cache, 0⟩ := by
  simp only [translate_sub_words, hci]
  cases halook : alGet st (get_translation_cache_path video_dir src_lang dst_lang
      (md5_hash (content_hash_input ws1))) with
  | some d => simp [halook]
  | none => simp [halook, alGet_alSet_self]

/- ### Claims -/

/-- C1: after the first successful commit, re-resolving the same
(videoDir, srcLang, dstLang) request with any token list describing the
same token set — irrespective of ordering or duplicate tokens — returns the
identical word-to-translation mapping, performs zero translator
invocations, and leaves the cache unchanged (it is served from the
persisted cache record). -/
theorem c1_resolve_idempotent (md5_hash : String → String) (dict : Dict)
    (st : CacheState) (video_dir src_lang dst_lang : String)
    (ws1 ws2 : List (String × String)) (h : ws1.toFinset = ws2.toFinset) :
    (translate_sub_words md5_hash dict
        (translate_sub_words md5_hash dict st video_dir src_lang dst_lang ws1).cache
        video_dir src_lang dst_lang ws2).mapping
      = (translate_sub_words md5_hash dict st video_dir src_lang dst_lang ws1).mapping
    ∧ (translate_sub_words md5_hash dict
        (translate_sub_words md5_hash dict st video_dir src_lang dst_lang ws1).cache
        video_dir src_lang dst_lang ws2).translatorCalls = 0
    ∧ (translate_sub_words md5_hash dict
        (translate_sub_words md5_hash dict st video_dir src_lang dst_lang ws1).cache
        video_dir src_lang dst_lang ws2).cache
      = (translate_sub_words md5_hash dict st video_dir src_lang dst_lang ws1).cache := by
  have hmem := mem_iff_of_toFinset_eq ws1 ws2 h
  have hci : content_hash_input ws2 = content_hash_input ws1 :=
    content_hash_input_eq ws2 ws1 (fun w => (mem_map_fst_iff ws1 ws2 hmem w).symm)
  rw [translate_sub_words_second md5_hash dict st video_dir src_lang dst_lang ws1 ws2 hci]
  exact ⟨rfl, rfl, rfl⟩

theorem c1_witness :
    (([("run", "VERB"), ("fast", "ADV")] : List (String × String)).toFinset
      = ([("fast", "ADV"), ("run", "VERB"), ("run", "VERB")] : List (String × String)).toFinset)
    ∧ ((translate_sub_words (fun s => s) [("run", ["correr"])]
        (translate_sub_words (fun s => s) [("run", ["correr"])] [] ("v") ("en") ("es")
          [("run", "VERB"), ("fast", "ADV")]).cache ("v") ("en") ("es")
        [("fast", "ADV"), ("run", "VERB"), ("run", "VERB")]).mapping
      = (translate_sub_words (fun s => s) [("run", ["correr"])] [] ("v") ("en") ("es")
          [("run", "VERB"), ("fast", "ADV")]).mapping
    ∧ (translate_sub_words (fun s => s) [("run", ["correr"])]
        (translate_sub_words (fun s => s) [("run", ["correr"])] [] ("v") ("en") ("es")
          [("run", "VERB"), ("fast", "ADV")]).cache ("v") ("en") ("es")
        [("fast", "ADV"), ("run", "VERB"), ("run", "VERB")]).translatorCalls = 0
    ∧ (translate_sub_words (fun s => s) [("run", ["correr"])]
        (translate_sub_words (fun s => s) [("run", ["correr"])] [] ("v") ("en") ("es")
          [("run", "VERB"), ("fast", "ADV")]).cache ("v") ("en") ("es")
        [("fast", "ADV"), ("run", "VERB"), ("run", "VERB")]).cache
      = (translate_sub_words (fun s => s) [("run", ["correr"])] [] ("v") ("en") ("es")
          [("run", "VERB"), ("fast", "ADV")]).cache) :=
  ⟨by decide,
   c1_resolve_idempotent (fun s => s) [("run", ["correr"])] [] ("v") ("en") ("es")
     [("run", "VERB"), ("fast", "ADV")] [("fast", "ADV"), ("run", "VERB"), ("run", "VERB")]
     (by decide)⟩

/-- C2: token lists that are equal as sets (permutations or duplications of
the same members) yield the identical cache key — the digest is taken over
the concatenation of the sorted, de-duplicated word texts — and resolving
them from the same cache state yields identical word-to-translation
mappings. -/
theorem c2_cache_key_deterministic (md5_hash : String → String) (dict : Dict)
    (st : CacheState) (video_dir src_lang dst_lang : String)
    (ws1 ws2 : List (String × String)) (h : ws1.toFinset = ws2.toFinset) :
    get_translation_cache_path video_dir src_lang dst_lang
        (md5_hash (content_hash_input ws1))
      = get_translation_cache_path video_dir src_lang dst_lang
        (md5_hash (content_hash_input ws2))
    ∧ ∀ w, alGet (translate_sub_words md5_hash dict st video_dir src_lang dst_lang ws1).mapping w
        = alGet (translate_sub_words md5_hash dict st video_dir src_lang dst_lang ws2).mapping w := by
  have hmem := mem_iff_of_toFinset_eq ws1 ws2 h
  have hci : content_hash_input ws1 = content_hash_input ws2 :=
    content_hash_input_eq ws1 ws2 (mem_map_fst_iff ws1 ws2 hmem)
  refine ⟨by rw [hci], ?_⟩
  intro w
  simp only [translate_sub_words, hci]
  cases halook : alGet st (get_translation_cache_path video_dir src_lang dst_lang
      (md5_hash (content_hash_input ws2))) with
  | some d => simp [halook]
  | none =>
    simp only [halook]
    rw [alGet_foldl_transStep dict ws1 [] w, alGet_foldl_transStep dict ws2 [] w,
      any_eq_of_mem_iff ws1 ws2 hmem]

theorem c2_witness :
    (([("run", "VERB"), ("fast", "ADV")] : List (String × String)).toFinset
      = ([("fast", "ADV"), ("run", "VERB")] : List (String × String)).toFinset)
    ∧ get_translation_cache_path ("v") ("en") ("es")
        ((fun s => s) (content_hash_input [("run", "VERB"), ("fast", "ADV")]))
      = get_translation_cache_path ("v") ("en") ("es")
        ((fun s => s) (content_hash_input [("fast", "ADV"), ("run", "VERB")])) :=
  ⟨by decide,
   (c2_cache_key_deterministic (fun s => s) [("run", ["correr"])] [] ("v") ("en") ("es")
     [("run", "VERB"), ("fast", "ADV")] [("fast", "ADV"), ("run", "VERB")] (by decide)).1⟩

/-- The dictionary used for the cache-key collision: all four words are
translatable with an allowed tag. -/
def collisionDict : Dict := [("ab", ["t1"]), ("c", ["t2"]), ("a", ["t3"]), ("bc", ["t4"])]

/-- C9: the cache key is not injective over token sets.  The word sets
{"ab", "c"} and {"a", "bc"} differ, yet both concatenate (sorted,
de-duplicated) to "abc", so for every digest function the cache key
coincides; consequently resolving {"a", "bc"} after {"ab", "c"} has been
committed returns {"ab", "c"}'s cached mapping — which contains no entry
for the requested, translatable word "a". -/
theorem c9_cache_key_collision (md5_hash : String → String) :
    content_hash_input [("ab", "NOUN"), ("c", "NOUN")]
      = content_hash_input [("a", "NOUN"), ("bc", "NOUN")]
    ∧ (["ab", "c"] : List String).toFinset ≠ (["a", "bc"] : List String).toFinset
    ∧ (translate_sub_words md5_hash collisionDict
        (translate_sub_words md5_hash collisionDict [] ("v") ("de") ("en")
          [("ab", "NOUN"), ("c", "NOUN")]).cache ("v") ("de") ("en")
        [("a", "NOUN"), ("bc", "NOUN")]).mapping
      = (translate_sub_words md5_hash collisionDict [] ("v") ("de") ("en")
          [("ab", "NOUN"), ("c", "NOUN")]).mapping
    ∧ alGet (translate_sub_words md5_hash collisionDict
        (translate_sub_words md5_hash collisionDict [] ("v") ("de") ("en")
          [("ab", "NOUN"), ("c", "NOUN")]).cache ("v") ("de") ("en")
        [("a", "NOUN"), ("bc", "NOUN")]).mapping ("a") = none
    ∧ wordSucceeds collisionDict ("a") ("NOUN") = true := by
  have hci : content_hash_input [("a", "NOUN"), ("bc", "NOUN")]
      = content_hash_input [("ab", "NOUN"), ("c", "NOUN")] := by decide
  have hmap := congrArg ResolveOutcome.mapping
    (translate_sub_words_second md5_hash collisionDict [] ("v") ("de") ("en")
      [("ab", "NOUN"), ("c", "NOUN")] [("a", "NOUN"), ("bc", "NOUN")] hci)
  refine ⟨hci.symm, by decide, hmap, ?_, by decide⟩
  rw [hmap]
  have hval : (translate_sub_words md5_hash collisionDict [] ("v") ("de") ("en")
      [("ab", "NOUN"), ("c", "NOUN")]).mapping
      = [("ab", some ["t1"]), ("c", some ["t2"])] := rfl
  rw [hval]
  decide

def c3dict : Dict := [("dog", ["hund"])]

deriving instance DecidableEq for Except

/-- C3 counterexample: on a cache miss, the requested token ("zzz", "NOUN")
raises NotFoundError and ("dog", "DET") raises UnsupportedPartOfSpeechError;
the returned mapping contains no entry at all for "zzz" (`alGet … = none`,
i.e. the key is absent) — not an entry with value null (`some none`) as the
claim states. -/
theorem c3_counterexample :
    (("zzz", "NOUN") ∈ ([("dog", "NOUN"), ("zzz", "NOUN"), ("dog", "DET")]
      : List (String × String)))
    ∧ Translator.word c3dict ("zzz") ("NOUN") = .error .notFound
    ∧ Translator.word c3dict ("dog") ("DET") = .error .unsupportedPartOfSpeech
    ∧ (translate_sub_words (fun s => s) c3dict [] ("v") ("en") ("de")
        [("dog", "NOUN"), ("zzz", "NOUN"), ("dog", "DET")]).mapping
      = [("dog", some ["hund"])]
    ∧ alGet (translate_sub_words (fun s => s) c3dict [] ("v") ("en") ("de")
        [("dog", "NOUN"), ("zzz", "NOUN"), ("dog", "DET")]).mapping ("zzz") = none
    ∧ alGet (translate_sub_words (fun s => s) c3dict [] ("v") ("en") ("de")
        [("dog", "NOUN"), ("zzz", "NOUN"), ("dog", "DET")]).mapping ("zzz")
      ≠ some none := by
  refine ⟨by decide, by decide, by decide, by decide, by decide, by decide⟩

/-- C3 amended: on a cache miss every token is attempted exactly once,
per-token errors are isolated (never propagated out of the batch), and the
full mapping is committed to the cache exactly once before returning; but a
word all of whose requested lookups raise is OMITTED from the mapping (its
key is absent), not recorded as null. -/
theorem c3_amended (md5_hash : String → String) (dict : Dict) (st : CacheState)
    (video_dir src_lang dst_lang : String) (ws : List (String × String)) (w : String)
    (hmiss : alGet st (get_translation_cache_path video_dir src_lang dst_lang
      (md5_hash (content_hash_input ws))) = none)
    (hfail : ∀ tag, (w, tag) ∈ ws → ∃ e, Translator.word dict w tag = .error e) :
    alGet (translate_sub_words md5_hash dict st video_dir src_lang dst_lang ws).mapping w
      = none
    ∧ (translate_sub_words md5_hash dict st video_dir src_lang dst_lang ws).cache
      = alSet st (get_translation_cache_path video_dir src_lang dst_lang
          (md5_hash (content_hash_input ws)))
        (translate_sub_words md5_hash dict st video_dir src_lang dst_lang ws).mapping
    ∧ (translate_sub_words md5_hash dict st video_dir src_lang dst_lang ws).translatorCalls
      = ws.length := by
  have hfail' : ∀ tag, (w, tag) ∈ ws → wordSucceeds dict w tag = false := by
    intro tag htag
    cases hsu : wordSucceeds dict w tag with
    | false => rfl
    | true =>
      exfalso
      rcases hfail tag htag with ⟨e, he⟩
      rw [word_eq_ok dict w tag hsu] at he
      exact Except.noConfusion he
  refine ⟨?_, ?_, ?_⟩
  · simp only [translate_sub_words, hmiss]
    rw [alGet_foldl_transStep dict ws [] w]
    have hany : ws.any (fun wt => wt.1 == w && wordSucceeds dict wt.1 wt.2) = false := by
      cases hb : ws.any (fun wt => wt.1 == w && wordSucceeds dict wt.1 wt.2) with
      | false => rfl
      | true =>
        exfalso
        rcases List.any_eq_true.mp hb with ⟨wt, hwt, hp⟩
        obtain ⟨a, b⟩ := wt
        simp only [Bool.and_eq_true, beq_iff_eq] at hp
        obtain ⟨he, hs⟩ := hp
        subst he
        rw [hfail' b hwt] at hs
        exact Bool.noConfusion hs
    rw [hany]
    simp [alGet]
  · simp only [translate_sub_words, hmiss]
  · simp only [translate_sub_words, hmiss]

theorem c3_witness :
    alGet (translate_sub_words (fun s => s) c3dict [] ("v") ("en") ("de")
        [("dog", "NOUN"), ("zzz", "NOUN"), ("dog", "DET")]).mapping ("zzz") = none
    ∧ (translate_sub_words (fun s => s) c3dict [] ("v") ("en") ("de")
        [("dog", "NOUN"), ("zzz", "NOUN"), ("dog", "DET")]).cache
      = alSet [] (get_translation_cache_path ("v") ("en") ("de")
          ((fun s => s) (content_hash_input [("dog", "NOUN"), ("zzz", "NOUN"), ("dog", "DET")])))
        (translate_sub_words (fun s => s) c3dict [] ("v") ("en") ("de")
          [("dog", "NOUN"), ("zzz", "NOUN"), ("dog", "DET")]).mapping
    ∧ (translate_sub_words (fun s => s) c3dict [] ("v") ("en") ("de")
        [("dog", "NOUN"), ("zzz", "NOUN"), ("dog", "DET")]).translatorCalls = 3 :=
  c3_amended (fun s => s) c3dict [] ("v") ("en") ("de")
    [("dog", "NOUN"), ("zzz", "NOUN"), ("dog", "DET")] ("zzz") (by decide)
    (fun tag htag => by
      simp only [List.mem_cons, List.not_mem_nil, or_false, Prod.mk.injEq] at htag
      rcases htag with ⟨h1, _⟩ | ⟨_, h2⟩ | ⟨h1, _⟩
      · exact absurd h1 (by decide)
      · exact ⟨.notFound, by rw [h2]; decide⟩
      · exact absurd h1 (by decide))

set_option maxRecDepth 8000 in
/-- C4 counterexample: under IEEE-754 double arithmetic (the Python `float`
semantics of parse_vtt_time/format_vtt_time), re-serializing the parse of
the well-formed time code "00:01.001" yields "00:00:01.000" — the instants
denoted differ by one millisecond (1001 ms vs 1000 ms), so the round trip
does not reproduce timings to millisecond precision. -/
theorem c4_counterexample :
    format_vtt_time_fp (parse_vtt_time_fp ("00:01.001")) = ("00:00:01.000")
    ∧ parse_vtt_time ("00:01.001") = 1001 / 1000
    ∧ parse_vtt_time ("00:00:01.000") = 1
    ∧ parse_vtt_time ("00:00:01.000") ≠ parse_vtt_time ("00:01.001") := by
  have h2 : parse_vtt_time ("00:01.001") = 1001 / 1000 := by
    have he : ("00:01.001" : String) = String.mk (timeChars2 0 1 1) := by decide
    rw [he]
    show parse_vtt_chars (String.mk (timeChars2 0 1 1)).data = _
    rw [data_mk, parse_timeChars2 0 1 1 (by norm_num)]
    norm_num
  have h3 : parse_vtt_time ("00:00:01.000") = 1 := by
    have he : ("00:00:01.000" : String) = String.mk (timeChars3 0 0 1 0) := by decide
    rw [he]
    show parse_vtt_chars (String.mk (timeChars3 0 0 1 0)).data = _
    rw [data_mk, parse_timeChars3 0 0 1 0 (by norm_num)]
    norm_num
  refine ⟨by decide, h2, h3, ?_⟩
  rw [h2, h3]
  norm_num

/-- C4 amended: over exact arithmetic the round trip holds to the
millisecond — for every nonnegative time, formatting (all four fields
zero-padded, hours unwrapped) and re-parsing yields exactly the input
truncated to whole milliseconds; the IEEE-754 implementation can lose a
millisecond (see the counterexample). -/
theorem c4_amended (t : ℚ) (ht : 0 ≤ t) :
    parse_vtt_time (format_vtt_time t) = ((⌊t * 1000⌋₊ : ℕ) : ℚ) / 1000 :=
  vtt_roundtrip_exact t ht

theorem c4_witness :
    ((0 : ℚ) ≤ 2)
    ∧ parse_vtt_time (format_vtt_time 2) = ((⌊(2 : ℚ) * 1000⌋₊ : ℕ) : ℚ) / 1000 :=
  ⟨by norm_num, c4_amended 2 (by norm_num)⟩

/-- C5: `word(w, tag)` raises UnsupportedPartOfSpeechError exactly when the
tag is outside the fixed allowed set {NOUN, ADJ, VERB, PRON, ADV, PROPN,
ADP}; in particular word("dog", "DET") raises it and word("dog", "NOUN")
does not, for every dictionary. -/
theorem c5_pos_gating (dict : Dict) (w tag : String) :
    (Translator.word dict w tag = .error .unsupportedPartOfSpeech ↔ tag ∉ allowedPos)
    ∧ Translator.word dict ("dog") ("DET") = .error .unsupportedPartOfSpeech
    ∧ Translator.word dict ("dog") ("NOUN") ≠ .error .unsupportedPartOfSpeech := by
  have hgen : ∀ (w' tag' : String),
      Translator.word dict w' tag' = .error .unsupportedPartOfSpeech ↔ tag' ∉ allowedPos := by
    intro w' tag'
    unfold Translator.word
    by_cases hm : tag' ∈ allowedPos
    · rw [if_pos hm]
      constructor
      · intro h
        exfalso
        cases hW : WordTranslator.translate dict w' with
        | some t =>
          rw [hW] at h
          exact Except.noConfusion h
        | none =>
          rw [hW] at h
          simp at h
      · intro h
        exact absurd hm h
    · rw [if_neg hm]
      simp [hm]
  exact ⟨hgen w tag, (hgen ("dog") ("DET")).mpr (by decide),
    fun h => absurd (by decide : ("NOUN" : String) ∈ allowedPos) ((hgen ("dog") ("NOUN")).mp h)⟩

/-- C6: loading a dictionary pair fails with MissingDictionaryError when the
forward file is absent or when the reverse file is absent — it can succeed
only when both direction files exist. -/
theorem c6_load_requires_both (fs : String → Option (List String))
    (jmdict : List (String × String)) (src dst : String)
    (h : fs (dictFileName src dst) = none ∨ fs (dictFileName dst src) = none) :
    load_dictionary fs jmdict src dst = .error (.missingDictionary src dst)
    ∨ load_dictionary fs jmdict src dst = .error (.missingDictionary dst src) := by
  cases hf : fs (dictFileName src dst) with
  | none =>
    left
    simp [load_dictionary, hf]
  | some fwd =>
    have hr : fs (dictFileName dst src) = none := by
      rcases h with h1 | h1
      · rw [hf] at h1
        exact Option.noConfusion h1
      · exact h1
    right
    simp [load_dictionary, hf, hr]

/-- A fixture directory holding only the forward file ja-en.txt. -/
def c6fs : String → Option (List String) :=
  fun n => if n = dictFileName ("ja") ("en") then some ["犬 dog"] else none

theorem c6_witness :
    (c6fs (dictFileName ("ja") ("en")) ≠ none ∧ c6fs (dictFileName ("en") ("ja")) = none)
    ∧ (load_dictionary c6fs [] ("ja") ("en") = .error (.missingDictionary ("ja") ("en"))
      ∨ load_dictionary c6fs [] ("ja") ("en") = .error (.missingDictionary ("en") ("ja"))) :=
  ⟨⟨by decide, by decide⟩,
   c6_load_requires_both c6fs [] ("ja") ("en") (Or.inr (by decide))⟩

/-- C7 counterexample: the spaCy-family tokenizer passes the engine-native
tag through verbatim; with the engine tagging "the" as DET (a real spaCy
universal-POS output), the produced token carries tag "DET", which is
outside the claimed universal-plus-extensions tag set, and the tag is not
absent. -/
theorem c7_counterexample :
    SpacyTagger.tag (fun _ => [("the", "DET")]) ("the deal")
      = [Token.mk ("the") (some ("DET"))]
    ∧ ("DET" : String) ∉ universalTagSet ++ extensionTagSet
    ∧ (Token.mk ("the") (some ("DET"))).tag ≠ none := by
  refine ⟨by decide, by decide, by decide⟩

theorem table_tag_mem (table : List (String × String))
    (hsub : ∀ x ∈ table.map Prod.snd, x ∈ universalTagSet ++ extensionTagSet)
    (engine : String → List (String × String)) (text : String) (tok : Token)
    (h : tok ∈ (if text = "" then []
      else (engine text).map (fun p => Token.mk p.1 (alGet table p.2)))) :
    tok.tag = none ∨ tok.tag ∈ (universalTagSet ++ extensionTagSet).map some := by
  by_cases ht : text = ""
  · rw [if_pos ht] at h
    exact absurd h (List.not_mem_nil tok)
  · rw [if_neg ht] at h
    rcases List.mem_map.mp h with ⟨p, _, rfl⟩
    cases hv : alGet table p.2 with
    | none =>
      left
      rfl
    | some v =>
      right
      exact List.mem_map.mpr ⟨v, hsub v (alGet_mem_values table p.2 v hv), rfl⟩

/-- C7 amended: for the table-driven tokenizers (Japanese, Chinese), every
produced token's tag is either absent or one of the static tables' values,
all of which lie in the universal tag set plus the language-specific
extensions {suffix, idiom, english, chinese, romanji, IDIOM}; an engine tag
with no table entry yields an absent tag, never an error.  The spaCy-family
tokenizer does not have this property (see the counterexample): it emits
the engine tag unchanged. -/
theorem c7_amended (engine : String → List (String × String)) (text : String)
    (tok : Token)
    (h : tok ∈ JapaneseTagger.tag engine text ∨ tok ∈ ChineseTagger.tag engine text) :
    tok.tag = none ∨ tok.tag ∈ (universalTagSet ++ extensionTagSet).map some := by
  rcases h with h | h
  · exact table_tag_mem japanesePosTag (by decide) engine text tok h
  · exact table_tag_mem chinesePosTag (by decide) engine text tok h

theorem c7_witness :
    ((Token.mk ("ねこ") none ∈ JapaneseTagger.tag
        (fun _ => [("犬", "名詞"), ("ねこ", "ZZZ")]) ("x"))
      ∨ (Token.mk ("ねこ") none ∈ ChineseTagger.tag
        (fun _ => [("犬", "名詞"), ("ねこ", "ZZZ")]) ("x")))
    ∧ ((Token.mk ("ねこ") none).tag = none
      ∨ (Token.mk ("ねこ") none).tag ∈ (universalTagSet ++ extensionTagSet).map some) :=
  ⟨Or.inl (by decide),
   c7_amended (fun _ => [("犬", "名詞"), ("ねこ", "ZZZ")]) ("x") (Token.mk ("ねこ") none)
     (Or.inl (by decide))⟩

/-- C8: time-code parsing accepts both the 2-field and the 3-field form,
treating an absent hour field as zero: `MM:SS.mmm` parses to
`60·MM + SS + mmm/1000` and `HH:MM:SS.mmm` to `3600·HH + 60·MM + SS +
mmm/1000`. -/
theorem c8_parse_time_fields (hh mm ss mmm : ℕ) (h : mmm < 1000) :
    parse_vtt_time (String.mk (timeChars2 mm ss mmm))
      = 60 * (mm : ℚ) + (ss : ℚ) + (mmm : ℚ) / 1000
    ∧ parse_vtt_time (String.mk (timeChars3 hh mm ss mmm))
      = 3600 * (hh : ℚ) + 60 * (mm : ℚ) + (ss : ℚ) + (mmm : ℚ) / 1000 := by
  constructor
  · show parse_vtt_chars (String.mk (timeChars2 mm ss mmm)).data = _
    rw [data_mk]
    exact parse_timeChars2 mm ss mmm h
  · show parse_vtt_chars (String.mk (timeChars3 hh mm ss mmm)).data = _
    rw [data_mk]
    exact parse_timeChars3 hh mm ss mmm h

theorem c8_witness :
    (789 < 1000)
    ∧ (parse_vtt_time (String.mk (timeChars2 34 56 789))
      = 60 * ((34 : ℕ) : ℚ) + ((56 : ℕ) : ℚ) + ((789 : ℕ) : ℚ) / 1000
    ∧ parse_vtt_time (String.mk (timeChars3 12 34 56 789))
      = 3600 * ((12 : ℕ) : ℚ) + 60 * ((34 : ℕ) : ℚ) + ((56 : ℕ) : ℚ)
        + ((789 : ℕ) : ℚ) / 1000) :=
  ⟨by norm_num, c8_parse_time_fields 12 34 56 789 (by norm_num)⟩

/-- C10: `WordTranslator.translate` looks up the lowercased word while
`load_dictionary` keeps keys' original case: a word that is itself a key
but whose lowercase form is not a key translates to None, and every lookup
consults only the lowercased key, so an entry whose key contains an
uppercase character is unreachable. -/
theorem c10_translate_lowercases (dict : Dict) (w k w' : String)
    (hw : alGet dict w ≠ none)
    (hlow : alGet dict (strToLower w) = none)
    (hk : k.data.any Char.isUpper = true) :
    WordTranslator.translate dict w = none
    ∧ WordTranslator.translate dict w' = alGet dict (strToLower w')
    ∧ strToLower w' ≠ k :=
  ⟨hlow, rfl, strToLower_ne_of_hasUpper k w' hk⟩

theorem c10_witness :
    (alGet [("Dog", ["hund"])] ("Dog") ≠ none
      ∧ alGet [("Dog", ["hund"])] (strToLower ("Dog")) = none
      ∧ ("Dog" : String).data.any Char.isUpper = true)
    ∧ (WordTranslator.translate [("Dog", ["hund"])] ("Dog") = none
      ∧ WordTranslator.translate [("Dog", ["hund"])] ("DOG")
        = alGet [("Dog", ["hund"])] (strToLower ("DOG"))
      ∧ strToLower ("DOG") ≠ ("Dog")) :=
  ⟨⟨by decide, by decide, by decide⟩,
   c10_translate_lowercases [("Dog", ["hund"])] ("Dog") ("Dog") ("DOG")
     (by decide) (by decide) (by decide)⟩
